import Mathlib

/-!
Verification of the list-update script (`scripts/update_chn_ip_domain.py`).

Text is embedded as `List Char` (Python `str`).  The script's own code
(line filtering, field splitting, `int()` conversion, the error-handling
structure, output ordering) is translated directly from the source.  The
external library pieces (`netaddr` parsing/merging) and the parts the spec
describes abstractly are modelled from the spec, and marked as such.
-/

namespace ChnIp

/-! ## Python string primitives -/

/-- Whitespace characters stripped by Python `int()` (the common ASCII ones). -/
def pyIsSpace (c : Char) : Bool :=
  c == ' ' || c == '\t' || c == '\n' || c == '\x0b' || c == '\x0c' || c == '\x0d'

/-- Does `pat` occur at the start of `s`?  (Helper for substring search.) -/
def startsWith : List Char → List Char → Bool
  | [], _ => true
  | _ :: _, [] => false
  | p :: ps, c :: cs => p == c && startsWith ps cs

/-- Python `s.find(pat) != -1`: does `pat` occur anywhere in `s`? -/
def hasSub (pat : List Char) : List Char → Bool
  | [] => startsWith pat []
  | c :: t => startsWith pat (c :: t) || hasSub pat t

/-- Python `s.split(sep)` for a single-character separator `sep`
    (the script only ever splits on the one-character strings `|`, `/`, `.`). -/
def pySplitChar (sep : Char) : List Char → List (List Char)
  | [] => [[]]
  | c :: t =>
    if c = sep then [] :: pySplitChar sep t
    else
      match pySplitChar sep t with
      | [] => [[c]]
      | h :: r => (c :: h) :: r

/-- Python `s.splitlines()`, for LF / CRLF terminated text (the feed formats):
    split on a newline, drop the empty piece a trailing newline produces, and
    strip a carriage return left at the end of a line by a CRLF break. -/
def pySplitlines (s : List Char) : List (List Char) :=
  let parts := pySplitChar '\n' s
  let parts := if parts.getLast? = some [] then parts.dropLast else parts
  parts.map (fun l => if l.getLast? = some '\x0d' then l.dropLast else l)

/-- Decimal digit value. -/
def digitVal (c : Char) : Option ℕ :=
  if '0' ≤ c ∧ c ≤ '9' then some (c.toNat - 48) else none

def digitsToNatAux (acc : ℕ) : List Char → Option ℕ
  | [] => some acc
  | c :: t =>
    match digitVal c with
    | none => none
    | some d => digitsToNatAux (acc * 10 + d) t

/-- Value of a nonempty all-decimal-digit string. -/
def digitsToNat : List Char → Option ℕ
  | [] => none
  | c :: t => digitsToNatAux 0 (c :: t)

/-- Python `int(s)`: strip surrounding whitespace, optional sign, decimal
    digits; `none` models the `ValueError` raised on anything else.
    (Digit-group underscores are not modelled; the feeds never contain them.) -/
def pyInt (s : List Char) : Option ℤ :=
  let t := ((s.dropWhile pyIsSpace).reverse.dropWhile pyIsSpace).reverse
  match t with
  | '-' :: ds => (digitsToNat ds).map (fun n => -(n : ℤ))
  | '+' :: ds => (digitsToNat ds).map (fun n => (n : ℤ))
  | ds => (digitsToNat ds).map (fun n => (n : ℤ))

/-! ## Exact base-2 logarithms

`math.log(count, 2)` is modelled with exact real-number semantics:
`int(32 - log2 c)` truncates toward zero, which equals `32 - ⌈log2 c⌉`
for `1 ≤ c ≤ 2^32` and `32 - ⌊log2 c⌋` for larger `c`.  (The float
evaluation deviates from the exact value at `c = 2^29` and `c = 2^31`,
where IEEE-754 `log(c)/log(2)` lands just above the integer; that
deviation is the subject of the C2 bug report and is not reproduced
by this model, which follows the spec's exact conversion.) -/

def ceilLog2Aux : ℕ → ℕ → ℕ
  | 0, _ => 0
  | f + 1, n => if n ≤ 1 then 0 else ceilLog2Aux f ((n + 1) / 2) + 1

/-- Least `k` with `n ≤ 2^k`, for `n ≥ 1`. -/
def ceilLog2 (n : ℕ) : ℕ := ceilLog2Aux n n

def floorLog2Aux : ℕ → ℕ → ℕ
  | 0, _ => 0
  | f + 1, n => if n ≤ 1 then 0 else floorLog2Aux f (n / 2) + 1

/-- Greatest `k` with `2^k ≤ n`, for `n ≥ 1`. -/
def floorLog2 (n : ℕ) : ℕ := floorLog2Aux n n

/-- Is `n` a power of two? -/
def isPow2 (n : ℕ) : Bool := n = 2 ^ ceilLog2 n

/-- Exact-real value of Python `int(32 - math.log(c, 2))` for `c ≥ 1`
    (`int()` truncates toward zero). -/
def plenOfCount (c : ℕ) : ℤ :=
  if c ≤ 2 ^ 32 then (32 : ℤ) - ceilLog2 c else (32 : ℤ) - floorLog2 c

/-! ## Networks

Modelled from the spec: an `IPNetwork` is a (bit-width, base-address,
prefix-length) triple, the base address normalized so that all bits beyond
the prefix length are cleared.  IPv4 and IPv6 are handled uniformly through
the bit-width field (32 resp. 128). -/

@[ext]
structure Net where
  w : ℕ
  addr : ℕ
  plen : ℕ
deriving DecidableEq

/-- One past the last address covered by `n`. -/
def endA (n : Net) : ℕ := n.addr + 2 ^ (n.w - n.plen)

/-- Well-formedness from the spec's data model: the prefix length fits the
    width, the address fits the width, and the address is aligned to the
    block size (all bits beyond the prefix length cleared). -/
def wfNet (n : Net) : Prop :=
  n.plen ≤ n.w ∧ n.addr < 2 ^ n.w ∧ 2 ^ (n.w - n.plen) ∣ n.addr

instance (n : Net) : Decidable (wfNet n) := by unfold wfNet; infer_instance

/-- Construct a normalized network: clear the bits beyond the prefix length
    (the canonical network address the merge operates on). -/
def mkNet (w a pl : ℕ) : Net :=
  ⟨w, a / 2 ^ (w - pl) * 2 ^ (w - pl), pl⟩

/-! ## Address parsing (the `netaddr.IPNetwork` boundary)

Modelled from the spec: the script builds `netaddr.IPNetwork` values from
`start/prefix-length` strings; a malformed address or an out-of-range prefix
raises an (uncaught) error.  Addresses are standard dotted-quad IPv4 and
grouped-hex IPv6 (with one optional `::` compression; the rarely used
IPv4-embedded IPv6 forms are not modelled, no claim exercises them). -/

/-- Dotted-quad octet: decimal digits, value at most 255. -/
def octVal (s : List Char) : Option ℕ :=
  match digitsToNat s with
  | some n => if n ≤ 255 then some n else none
  | none => none

/-- Parse a dotted-quad IPv4 address to its 32-bit value. -/
def parseIPv4 (s : List Char) : Option ℕ :=
  match (pySplitChar '.' s).map octVal with
  | [some a, some b, some c, some d] => some (((a * 256 + b) * 256 + c) * 256 + d)
  | _ => none

def hexDigit (c : Char) : Option ℕ :=
  if '0' ≤ c ∧ c ≤ '9' then some (c.toNat - 48)
  else if 'a' ≤ c ∧ c ≤ 'f' then some (c.toNat - 87)
  else if 'A' ≤ c ∧ c ≤ 'F' then some (c.toNat - 55)
  else none

def hexGroupAux (acc : ℕ) : List Char → Option ℕ
  | [] => some acc
  | c :: t =>
    match hexDigit c with
    | none => none
    | some d => hexGroupAux (acc * 16 + d) t

/-- An IPv6 group: one to four hex digits. -/
def hexGroup (s : List Char) : Option ℕ :=
  if s.length = 0 ∨ 4 < s.length then none else hexGroupAux 0 s

def allSome : List (Option ℕ) → Option (List ℕ)
  | [] => some []
  | none :: _ => none
  | some a :: t => (allSome t).map (fun l => a :: l)

/-- Split at the first `::`, if any. -/
def splitDoubleColon : List Char → Option (List Char × List Char)
  | [] => none
  | ':' :: ':' :: t => some ([], t)
  | c :: t => (splitDoubleColon t).map (fun p => (c :: p.1, p.2))

def groupsVal (gs : List ℕ) : ℕ := gs.foldl (fun a g => a * 65536 + g) 0

/-- Parse a grouped-hex IPv6 address to its 128-bit value. -/
def parseIPv6 (s : List Char) : Option ℕ :=
  match splitDoubleColon s with
  | none =>
    match allSome ((pySplitChar ':' s).map hexGroup) with
    | some gs => if gs.length = 8 then some (groupsVal gs) else none
    | none => none
  | some (l, r) =>
    let lparts := if l = [] then [] else pySplitChar ':' l
    let rparts := if r = [] then [] else pySplitChar ':' r
    match allSome (lparts.map hexGroup), allSome (rparts.map hexGroup) with
    | some lg, some rg =>
      if lg.length + rg.length ≤ 7 then
        some (groupsVal lg * 2 ^ (16 * (8 - lg.length)) + groupsVal rg)
      else none
    | _, _ => none

/-! ## Per-line parsing (`update_ip_list`'s loop body) -/

def v4MarkerS : String := "|CN|ipv4|"
def v6MarkerS : String := "|CN|ipv6|"
def v4Marker : List Char := v4MarkerS.toList
def v6Marker : List Char := v6MarkerS.toList

/-- The IPv4 branch: `count = int(elems[4])` (`ValueError` aborts the run),
    `cidr_prefix_length = int(32 - math.log(count, 2))` (exact-real
    semantics, see `plenOfCount`; `count ≤ 0` raises a math domain error and
    a negative resulting prefix makes `netaddr` raise — both abort), then
    `netaddr.IPNetwork(f'{ip_start}/{len}')` (a bad address aborts). -/
def parseV4 (ipStr countStr : List Char) : Except Unit Net :=
  match pyInt countStr with
  | none => Except.error ()
  | some c =>
    if c ≤ 0 then Except.error ()
    else
      let pl : ℤ := plenOfCount c.toNat
      if pl < 0 then Except.error ()
      else
        match parseIPv4 ipStr with
        | none => Except.error ()
        | some a => Except.ok (mkNet 32 a pl.toNat)

/-- The IPv6 branch: `elems[4]` is used directly as the prefix length; the
    string must convert to an integer in `[0, 128]` and the address must
    parse, else `netaddr` raises and the run aborts. -/
def parseV6 (ipStr plStr : List Char) : Except Unit Net :=
  match pyInt plStr with
  | none => Except.error ()
  | some pl =>
    if pl < 0 ∨ 128 < pl then Except.error ()
    else
      match parseIPv6 ipStr with
      | none => Except.error ()
      | some a => Except.ok (mkNet 128 a pl.toNat)

/-- One line of the loop body.  `elems = line.split('|')`; both branches read
    `elems[3]` and `elems[4]`, so a line with fewer than five fields raises
    `IndexError`, which the `except IndexError` arm catches: the line is
    logged and skipped and contributes no networks.  Any other exception
    (`ValueError` from `int`, `netaddr` errors) propagates and aborts. -/
def parseLineL (line : List Char) : Except Unit (List Net) :=
  let elems := pySplitChar '|' line
  if elems.length < 5 then Except.ok []
  else do
    let ns4 ←
      if hasSub v4Marker line then
        (parseV4 (elems.getD 3 []) (elems.getD 4 [])).map (fun n => [n])
      else pure []
    let ns6 ←
      if hasSub v6Marker line then
        (parseV6 (elems.getD 3 []) (elems.getD 4 [])).map (fun n => [n])
      else pure []
    pure (ns4 ++ ns6)

/-- The whole parsing loop: lines processed in order, accumulating networks;
    the first uncaught exception aborts the run. -/
def parseLines : List (List Char) → Except Unit (List Net)
  | [] => Except.ok []
  | l :: rest =>
    match parseLineL l, parseLines rest with
    | Except.ok ns, Except.ok ms => Except.ok (ns ++ ms)
    | Except.error e, _ => Except.error e
    | Except.ok _, Except.error e => Except.error e

/-! ## The merge (`netaddr.cidr_merge` boundary)

Modelled from the spec: produce the smallest equivalent set of
non-overlapping networks by (1) sorting by base address with the shorter
prefix first as tie-break (IPv4 ordered before IPv6), (2) discarding any
network contained in an already-accepted one, (3) repeatedly merging two
sibling halves into their parent block until a fixed point is reached. -/

/-- Sort order: width, then base address, then prefix length (shorter first). -/
def netLE (a b : Net) : Prop :=
  a.w < b.w ∨ (a.w = b.w ∧ (a.addr < b.addr ∨ (a.addr = b.addr ∧ a.plen ≤ b.plen)))

instance : DecidableRel netLE := fun a b => by unfold netLE; infer_instance

/-- Step 1: sort. -/
def sortNets (l : List Net) : List Net := List.insertionSort netLE l

/-- Full containment: `n`'s address range lies inside `m`'s. -/
def containsN (m n : Net) : Prop :=
  m.w = n.w ∧ m.addr ≤ n.addr ∧ endA n ≤ endA m

instance (m n : Net) : Decidable (containsN m n) := by unfold containsN; infer_instance

/-- Step 2: subsumption over the sorted list, checking each network against
    the most recently accepted one. -/
def subsumeAux (m : Net) : List Net → List Net
  | [] => []
  | n :: rest => if containsN m n then subsumeAux m rest else n :: subsumeAux n rest

def subsume : List Net → List Net
  | [] => []
  | n :: rest => n :: subsumeAux n rest

/-- Adjacent networks `a`, `b` (in sorted order) are the two halves of one
    parent block: same width, same prefix length `P ≥ 1`, `a` aligned at the
    parent's size, and `b` starting right at `a`'s half boundary. -/
def canMerge (a b : Net) : Prop :=
  a.w = b.w ∧ a.plen = b.plen ∧ 1 ≤ a.plen ∧
    2 ^ (a.w - a.plen + 1) ∣ a.addr ∧ b.addr = a.addr + 2 ^ (a.w - a.plen)

instance (a b : Net) : Decidable (canMerge a b) := by unfold canMerge; infer_instance

/-- The parent block of a mergeable pair. -/
def parentN (a : Net) : Net := ⟨a.w, a.addr, a.plen - 1⟩

/-- One left-to-right merging sweep (a freshly formed parent may merge
    again with the next element). -/
def siblingPassAux : Net → List Net → List Net
  | a, [] => [a]
  | a, b :: rest =>
    if canMerge a b then siblingPassAux (parentN a) rest
    else a :: siblingPassAux b rest

def siblingPass : List Net → List Net
  | [] => []
  | a :: rest => siblingPassAux a rest

/-- Step 3: iterate the sweep to a fixed point.  Every productive sweep
    strictly shortens the list, so the list length bounds the iterations. -/
def mergeLoop : ℕ → List Net → List Net
  | 0, l => l
  | f + 1, l =>
    let l2 := siblingPass l
    if l2 = l then l else mergeLoop f l2

/-- The merge: sort, subsume, then sibling-merge to a fixed point. -/
def cidr_merge (l : List Net) : List Net :=
  mergeLoop l.length (subsume (sortNets l))

/-! ## Serialization and the IP-list operation -/

def sDot : String := "."
def sColon : String := ":"
def sDC : String := "::"
def sSlash : String := "/"

/-- Dotted-quad rendering of a 32-bit address. -/
def ipv4Str (a : ℕ) : String :=
  toString (a / 16777216 % 256) ++ sDot ++ toString (a / 65536 % 256) ++ sDot
    ++ toString (a / 256 % 256) ++ sDot ++ toString (a % 256)

def hexChar (n : ℕ) : Char :=
  if n < 10 then Char.ofNat (48 + n) else Char.ofNat (87 + n)

def hexStrAux : ℕ → ℕ → List Char
  | 0, _ => []
  | f + 1, n => if n < 16 then [hexChar n] else hexStrAux f (n / 16) ++ [hexChar (n % 16)]

/-- Lowercase hex rendering without leading zeros. -/
def hexStr (n : ℕ) : List Char := hexStrAux (n + 1) n

def v6Groups (a : ℕ) : List ℕ :=
  (List.range 8).map (fun i => a / 2 ^ (16 * (7 - i)) % 65536)

def zeroRunAt : List ℕ → ℕ
  | 0 :: t => zeroRunAt t + 1
  | _ => 0

/-- Leftmost longest run of zero groups: `(start index, length)`. -/
def bestRunAux : ℕ → List ℕ → ℕ × ℕ
  | _, [] => (0, 0)
  | i, g :: t =>
    let here := zeroRunAt (g :: t)
    let rest := bestRunAux (i + 1) t
    if rest.2 > here then rest else (i, here)

def colonJoin (gs : List ℕ) : String :=
  String.intercalate sColon (gs.map (fun g => String.mk (hexStr g)))

/-- Compressed IPv6 rendering (RFC 5952 style: the leftmost longest run of
    at least two zero groups becomes `::`). -/
def v6String (a : ℕ) : String :=
  let gs := v6Groups a
  let best := bestRunAux 0 gs
  if best.2 < 2 then colonJoin gs
  else colonJoin (gs.take best.1) ++ sDC ++ colonJoin (gs.drop (best.1 + best.2))

/-- `str(IPNetwork)` of a merged (canonical) network: `address/prefix-length`. -/
def netToString (n : Net) : String :=
  (if n.w = 32 then ipv4Str n.addr else v6String n.addr) ++ sSlash ++ toString n.plen

/-- The IP-list operation, as a function of the fetched response:
    a non-200 status raises before anything is parsed; otherwise the lines
    are parsed (any uncaught per-line exception aborts the run), the
    accumulated networks are merged, and only then is the complete result
    serialized for the single final file write.  `Except.error` means the
    run aborted with nothing written. -/
def update_ip_list (status : ℕ) (body : String) : Except Unit (List String) :=
  if status ≠ 200 then Except.error ()
  else
    (parseLines (pySplitlines body.toList)).map
      (fun ns => (cidr_merge ns).map netToString)

/-! ## The domain-list collector (`update_chn_domain_list`) -/

def srvMarkerS : String := "server=/"
def srvMarker : List Char := srvMarkerS.toList

/-- Loop body of `get_domains_from`: a line containing `server=/` is split on
    `/` and element 1 is taken as the domain; an `IndexError` (element 1
    missing) is caught and the line skipped. -/
def domainsFromLine (line : List Char) : List (List Char) :=
  if hasSub srvMarker line then
    match (pySplitChar '/' line).drop 1 with
    | d :: _ => [d]
    | [] => []
  else []

/-- Extract the domains of one fetched feed, in line order. -/
def get_domains_from (body : String) : List String :=
  ((pySplitlines body.toList).flatMap domainsFromLine).map (fun l => String.mk l)

/-- The collector over the three feeds (allowlist order is fixed in the
    script): concatenation in feed order, no deduplication, one per line. -/
def update_chn_domain_list (t1 t2 t3 : String) : List String :=
  get_domains_from t1 ++ get_domains_from t2 ++ get_domains_from t3

/-! ## Relations used to state the output invariants -/

/-- `a` lies strictly before `b`: either a smaller address family, or the
    same family with `a`'s whole range below `b`'s base address. -/
def disjR (a b : Net) : Prop :=
  a.w < b.w ∨ (a.w = b.w ∧ endA a ≤ b.addr)

/-- `a` and `b` are distinct same-length blocks lying in one common parent
    block of prefix length `P - 1` (the pair the spec's maximality clause
    says must not both survive the merge). -/
def SiblingsP (a b : Net) : Prop :=
  a.w = b.w ∧ a.plen = b.plen ∧ 1 ≤ a.plen ∧
    a.addr / 2 ^ (a.w - a.plen + 1) = b.addr / 2 ^ (a.w - a.plen + 1) ∧ a.addr ≠ b.addr

instance (a b : Net) : Decidable (SiblingsP a b) := by unfold SiblingsP; infer_instance

/-- The pairwise output contract of the merge: strictly ascending addresses
    within a family, no containment either way, no sibling pair either way. -/
def okPair (a b : Net) : Prop :=
  (a.w = b.w → a.addr < b.addr) ∧ ¬ containsN a b ∧ ¬ containsN b a ∧
    ¬ SiblingsP a b ∧ ¬ SiblingsP b a

/-! ## Exact logarithm lemmas -/

theorem ceilLog2Aux_le : ∀ f n, n ≤ f → 1 ≤ n → n ≤ 2 ^ ceilLog2Aux f n := by
  intro f
  induction f with
  | zero => intro n h1 h2; omega
  | succ f ih =>
    intro n h1 h2
    unfold ceilLog2Aux
    by_cases hn : n ≤ 1
    · rw [if_pos hn]; simpa using by omega
    · rw [if_neg hn]
      have hm : (n + 1) / 2 ≤ f := by omega
      have hm1 : 1 ≤ (n + 1) / 2 := by omega
      have hr := ih ((n + 1) / 2) hm hm1
      have hps : 2 ^ (ceilLog2Aux f ((n + 1) / 2) + 1)
          = 2 * 2 ^ ceilLog2Aux f ((n + 1) / 2) := by
        rw [pow_succ]; ring
      omega

theorem ceilLog2Aux_min : ∀ f n k, n ≤ f → n ≤ 2 ^ k → ceilLog2Aux f n ≤ k := by
  intro f
  induction f with
  | zero => intro n k _ _; unfold ceilLog2Aux; omega
  | succ f ih =>
    intro n k h1 h2
    unfold ceilLog2Aux
    by_cases hn : n ≤ 1
    · rw [if_pos hn]; omega
    · rw [if_neg hn]
      rcases k with _ | k
      · simp at h2; omega
      · have hps : 2 ^ (k + 1) = 2 * 2 ^ k := by rw [pow_succ]; ring
        have hm : (n + 1) / 2 ≤ 2 ^ k := by omega
        have := ih ((n + 1) / 2) k (by omega) hm
        omega

theorem ceilLog2_le (n k : ℕ) (h : n ≤ 2 ^ k) : ceilLog2 n ≤ k :=
  ceilLog2Aux_min n n k le_rfl h

theorem le_pow_ceilLog2 (n : ℕ) (h : 1 ≤ n) : n ≤ 2 ^ ceilLog2 n :=
  ceilLog2Aux_le n n le_rfl h

theorem ceilLog2_pow (k : ℕ) : ceilLog2 (2 ^ k) = k := by
  have h1 : 2 ^ k ≤ 2 ^ ceilLog2 (2 ^ k) :=
    le_pow_ceilLog2 _ Nat.one_le_two_pow
  have h2 : ceilLog2 (2 ^ k) ≤ k := ceilLog2_le _ _ le_rfl
  have h3 : k ≤ ceilLog2 (2 ^ k) := (Nat.pow_le_pow_iff_right (by omega)).mp h1
  omega

/-- For a non-power-of-two `n`, the exact `log2 n` lies strictly between
    `ceilLog2 n - 1` and `ceilLog2 n`. -/
theorem not_pow2_bracket (n : ℕ) (h1 : 1 ≤ n) (h2 : isPow2 n = false) :
    2 ^ (ceilLog2 n - 1) < n ∧ n < 2 ^ ceilLog2 n := by
  have ha : n ≤ 2 ^ ceilLog2 n := le_pow_ceilLog2 n h1
  have hne : n ≠ 2 ^ ceilLog2 n := by
    intro he
    rw [isPow2, decide_eq_false_iff_not] at h2
    exact h2 he
  have hb : n < 2 ^ ceilLog2 n := lt_of_le_of_ne ha hne
  refine ⟨?_, hb⟩
  have hpos : 1 ≤ ceilLog2 n := by
    by_contra hc
    have h0 : ceilLog2 n = 0 := by omega
    rw [h0] at hb
    simp at hb
    omega
  by_contra hc
  push_neg at hc
  have := ceilLog2_le n (ceilLog2 n - 1) hc
  omega

/-! ## Order facts about the sort relation -/

instance : IsTotal Net netLE := ⟨fun a b => by unfold netLE; omega⟩

instance : IsTrans Net netLE := ⟨fun a b c => by unfold netLE; omega⟩

instance : IsAntisymm Net netLE :=
  ⟨fun a b h1 h2 => by unfold netLE at h1 h2; ext <;> omega⟩

theorem wSize_pos (n : Net) : 0 < 2 ^ (n.w - n.plen) := Nat.pos_pow_of_pos _ (by omega)

theorem disjR_trans {a b c : Net} (h1 : disjR a b) (h2 : disjR b c) : disjR a c := by
  have hb := wSize_pos b
  unfold disjR endA at h1 h2 ⊢
  omega

instance : IsTrans Net disjR := ⟨fun _ _ _ => disjR_trans⟩

theorem disjR_netLE {a b : Net} (h : disjR a b) : netLE a b := by
  have ha := wSize_pos a
  unfold disjR endA at h
  unfold netLE
  omega

theorem disjR_w_le {a b : Net} (h : disjR a b) : a.w ≤ b.w := by
  unfold disjR at h; omega

theorem disjR_not_contains {a b : Net} (h : disjR a b) :
    ¬ containsN a b ∧ ¬ containsN b a := by
  have ha := wSize_pos a
  have hb := wSize_pos b
  unfold disjR endA at h
  constructor <;> intro hc <;> unfold containsN endA at hc <;> omega

/-! ## Geometry of aligned blocks -/

/-- Two well-formed aligned blocks in sort order are nested or disjoint. -/
theorem nested_or_disj {a b : Net} (ha : wfNet a) (hb : wfNet b) (hab : netLE a b) :
    containsN a b ∨ disjR a b := by
  obtain ⟨hpa, haa, hda⟩ := ha
  obtain ⟨hpb, hba, hdb⟩ := hb
  rcases hab with hw | ⟨hw, hrest⟩
  · exact Or.inr (Or.inl hw)
  by_cases hdisj : endA a ≤ b.addr
  · exact Or.inr (Or.inr ⟨hw, hdisj⟩)
  push_neg at hdisj
  left
  have hle : a.addr ≤ b.addr := by rcases hrest with h | ⟨he, _⟩ <;> omega
  refine ⟨hw, hle, ?_⟩
  unfold endA at hdisj ⊢
  rcases hrest with hlt | ⟨he, hpl⟩
  · -- strictly larger base address inside `a`'s range: `b` is the smaller block
    have hee : b.w - b.plen ≤ a.w - a.plen := by
      by_contra hcon
      push_neg at hcon
      have hsasb : 2 ^ (a.w - a.plen) ≤ 2 ^ (b.w - b.plen) :=
        Nat.pow_le_pow_right (by omega) (le_of_lt hcon)
      have hdvd1 : 2 ^ (a.w - a.plen) ∣ 2 ^ (b.w - b.plen) :=
        pow_dvd_pow 2 (le_of_lt hcon)
      have hdvd2 : 2 ^ (a.w - a.plen) ∣ b.addr := dvd_trans hdvd1 hdb
      have hdvd3 : 2 ^ (a.w - a.plen) ∣ b.addr - a.addr := Nat.dvd_sub' hdvd2 hda
      have hlow : 2 ^ (a.w - a.plen) ≤ b.addr - a.addr :=
        Nat.le_of_dvd (by omega) hdvd3
      omega
    have hdvd1 : 2 ^ (b.w - b.plen) ∣ 2 ^ (a.w - a.plen) := pow_dvd_pow 2 hee
    have hdvd2 : 2 ^ (b.w - b.plen) ∣ a.addr := dvd_trans hdvd1 hda
    have hdvd3 : 2 ^ (b.w - b.plen) ∣ a.addr + 2 ^ (a.w - a.plen) := dvd_add hdvd2 hdvd1
    have hdvd4 : 2 ^ (b.w - b.plen) ∣ a.addr + 2 ^ (a.w - a.plen) - b.addr :=
      Nat.dvd_sub' hdvd3 hdb
    have hlow : 2 ^ (b.w - b.plen) ≤ a.addr + 2 ^ (a.w - a.plen) - b.addr :=
      Nat.le_of_dvd (by omega) hdvd4
    omega
  · -- equal base: the longer prefix (smaller block) is contained
    have hee : b.w - b.plen ≤ a.w - a.plen := by omega
    have := Nat.pow_le_pow_right (show 1 ≤ 2 by omega) hee
    omega

/-- A well-formed sibling pair with `a` below `b` is exactly a mergeable
    adjacent pair: `b` starts right where `a` ends, and `a` is the aligned
    low half of the common parent. -/
theorem siblings_structure {a b : Net} (ha : wfNet a) (hb : wfNet b)
    (hs : SiblingsP a b) (hlt : a.addr < b.addr) :
    b.addr = endA a ∧ canMerge a b := by
  obtain ⟨hw, hp, hp1, hq, hne⟩ := hs
  have hDpos : 0 < 2 ^ (a.w - a.plen) := wSize_pos a
  have hP2 : 2 ^ (a.w - a.plen + 1) = 2 * 2 ^ (a.w - a.plen) := by rw [pow_succ]; ring
  have hP2pos : 0 < 2 ^ (a.w - a.plen + 1) := by omega
  have hda : 2 ^ (a.w - a.plen) ∣ a.addr := ha.2.2
  have hdb : 2 ^ (a.w - a.plen) ∣ b.addr := by
    have h := hb.2.2
    rw [← hw, ← hp] at h
    exact h
  have hDP2 : 2 ^ (a.w - a.plen) ∣ 2 ^ (a.w - a.plen + 1) := pow_dvd_pow 2 (by omega)
  have hdm1 : 2 ^ (a.w - a.plen) ∣ a.addr % 2 ^ (a.w - a.plen + 1) :=
    (Nat.dvd_mod_iff hDP2).mpr hda
  have hdm2 : 2 ^ (a.w - a.plen) ∣ b.addr % 2 ^ (a.w - a.plen + 1) :=
    (Nat.dvd_mod_iff hDP2).mpr hdb
  have hm1lt : a.addr % 2 ^ (a.w - a.plen + 1) < 2 ^ (a.w - a.plen + 1) :=
    Nat.mod_lt _ hP2pos
  have hm2lt : b.addr % 2 ^ (a.w - a.plen + 1) < 2 ^ (a.w - a.plen + 1) :=
    Nat.mod_lt _ hP2pos
  have hsplit : ∀ r : ℕ, 2 ^ (a.w - a.plen) ∣ r → r < 2 ^ (a.w - a.plen + 1) →
      r = 0 ∨ r = 2 ^ (a.w - a.plen) := by
    intro r hdr hrlt
    obtain ⟨t, ht⟩ := hdr
    rcases t with _ | _ | t
    · omega
    · omega
    · exfalso
      have : 2 ^ (a.w - a.plen) * 2 ≤ 2 ^ (a.w - a.plen) * (t + 1 + 1) :=
        Nat.mul_le_mul_left _ (by omega)
      omega
  have heq1 := Nat.div_add_mod a.addr (2 ^ (a.w - a.plen + 1))
  have heq2 := Nat.div_add_mod b.addr (2 ^ (a.w - a.plen + 1))
  have hr1 := hsplit _ hdm1 hm1lt
  have hr2 := hsplit _ hdm2 hm2lt
  have hqq : 2 ^ (a.w - a.plen + 1) * (a.addr / 2 ^ (a.w - a.plen + 1))
      = 2 ^ (a.w - a.plen + 1) * (b.addr / 2 ^ (a.w - a.plen + 1)) := by rw [hq]
  have hbase : b.addr = a.addr + 2 ^ (a.w - a.plen) := by omega
  have halign : 2 ^ (a.w - a.plen + 1) ∣ a.addr := by
    have hr10 : a.addr % 2 ^ (a.w - a.plen + 1) = 0 := by omega
    exact Nat.dvd_of_mod_eq_zero hr10
  exact ⟨by unfold endA; omega, ⟨hw, hp, hp1, halign, hbase⟩⟩

/-! ## The parent of a merged pair -/

theorem parentN_wf {a b : Net} (ha : wfNet a) (hc : canMerge a b) :
    wfNet (parentN a) := by
  obtain ⟨hpa, haa, hda⟩ := ha
  obtain ⟨hw, hp, hp1, halign, hbase⟩ := hc
  have hexp : a.w - (a.plen - 1) = a.w - a.plen + 1 := by omega
  refine ⟨?_, ?_, ?_⟩
  · show a.plen - 1 ≤ a.w
    omega
  · show a.addr < 2 ^ a.w
    exact haa
  · show 2 ^ (a.w - (a.plen - 1)) ∣ a.addr
    rw [hexp]
    exact halign

theorem parentN_endA {a b : Net} (ha : wfNet a) (hc : canMerge a b) :
    endA (parentN a) = endA b ∧ (parentN a).w = b.w ∧ (parentN a).addr = a.addr := by
  obtain ⟨hpa, haa, hda⟩ := ha
  obtain ⟨hw, hp, hp1, halign, hbase⟩ := hc
  have hexp : a.w - (a.plen - 1) = a.w - a.plen + 1 := by omega
  have hps : 2 ^ (a.w - a.plen + 1) = 2 * 2 ^ (a.w - a.plen) := by rw [pow_succ]; ring
  have hbe : b.w - b.plen = a.w - a.plen := by omega
  refine ⟨?_, ?_, rfl⟩
  · show a.addr + 2 ^ (a.w - (a.plen - 1)) = b.addr + 2 ^ (b.w - b.plen)
    rw [hexp, hbe, hps]
    omega
  · show a.w = b.w
    exact hw

/-! ## The subsumption pass -/

theorem subsumeAux_sublist : ∀ (l : List Net) (m : Net), (subsumeAux m l).Sublist l := by
  intro l
  induction l with
  | nil => intro m; simp [subsumeAux]
  | cons n rest ih =>
    intro m
    unfold subsumeAux
    by_cases hc : containsN m n
    · rw [if_pos hc]
      exact (ih m).trans (List.sublist_cons_self n rest)
    · rw [if_neg hc]
      exact (ih n).cons₂ n

theorem subsume_sublist (l : List Net) : (subsume l).Sublist l := by
  cases l with
  | nil => simp [subsume]
  | cons n rest => exact (subsumeAux_sublist rest n).cons₂ n

theorem subsumeAux_chain : ∀ (l : List Net) (m : Net), (∀ n ∈ m :: l, wfNet n) →
    List.Sorted netLE (m :: l) → List.Chain' disjR (m :: subsumeAux m l) := by
  intro l
  induction l with
  | nil => intro m _ _; simp [subsumeAux]
  | cons n rest ih =>
    intro m hwf hs
    rw [List.sorted_cons] at hs
    obtain ⟨hmle, hs2⟩ := hs
    have hs3 : List.Sorted netLE rest := by
      rw [List.sorted_cons] at hs2
      exact hs2.2
    unfold subsumeAux
    by_cases hc : containsN m n
    · rw [if_pos hc]
      apply ih m
      · intro x hx
        apply hwf
        simp only [List.mem_cons] at hx ⊢
        tauto
      · rw [List.sorted_cons]
        exact ⟨fun b hb => hmle b (by simp [hb]), hs3⟩
    · rw [if_neg hc]
      have hchain2 : List.Chain' disjR (n :: subsumeAux n rest) := by
        apply ih n
        · intro x hx
          apply hwf
          simp only [List.mem_cons] at hx ⊢
          tauto
        · exact hs2
      have hdisj : disjR m n := by
        have hor := nested_or_disj (hwf m (by simp)) (hwf n (by simp)) (hmle n (by simp))
        exact hor.resolve_left hc
      rw [List.chain'_cons]
      exact ⟨hdisj, hchain2⟩

theorem subsume_chain (l : List Net) (hwf : ∀ n ∈ l, wfNet n)
    (hs : List.Sorted netLE l) : List.Chain' disjR (subsume l) := by
  cases l with
  | nil => simp [subsume]
  | cons n rest => exact subsumeAux_chain rest n hwf hs

theorem subsumeAux_of_chain : ∀ (l : List Net) (m : Net),
    List.Chain' disjR (m :: l) → subsumeAux m l = l := by
  intro l
  induction l with
  | nil => intro m _; rfl
  | cons n rest ih =>
    intro m hch
    rw [List.chain'_cons] at hch
    unfold subsumeAux
    rw [if_neg (disjR_not_contains hch.1).1]
    rw [ih n hch.2]

theorem subsume_of_chain (l : List Net) (hch : List.Chain' disjR l) : subsume l = l := by
  cases l with
  | nil => rfl
  | cons n rest =>
    show n :: subsumeAux n rest = n :: rest
    rw [subsumeAux_of_chain rest n hch]

/-! ## The sibling-merge sweep -/

theorem siblingPassAux_head : ∀ (l : List Net) (a : Net), ∃ p rest2,
    siblingPassAux a l = p :: rest2 ∧ p.w = a.w ∧ p.addr = a.addr := by
  intro l
  induction l with
  | nil => intro a; exact ⟨a, [], rfl, rfl, rfl⟩
  | cons b rest ih =>
    intro a
    unfold siblingPassAux
    by_cases hc : canMerge a b
    · rw [if_pos hc]
      obtain ⟨p, r2, he, hw, ha⟩ := ih (parentN a)
      exact ⟨p, r2, he, hw, ha⟩
    · rw [if_neg hc]
      obtain ⟨p, r2, he, _, _⟩ := ih b
      exact ⟨a, siblingPassAux b rest, rfl, rfl, rfl⟩

theorem siblingPassAux_wf : ∀ (l : List Net) (a : Net), (∀ n ∈ a :: l, wfNet n) →
    ∀ n ∈ siblingPassAux a l, wfNet n := by
  intro l
  induction l with
  | nil =>
    intro a hwf n hn
    simp only [siblingPassAux, List.mem_singleton] at hn
    subst hn
    exact hwf n (by simp)
  | cons b rest ih =>
    intro a hwf n hn
    unfold siblingPassAux at hn
    by_cases hc : canMerge a b
    · rw [if_pos hc] at hn
      apply ih (parentN a) _ n hn
      intro x hx
      rcases List.mem_cons.mp hx with rfl | hx2
      · exact parentN_wf (hwf a (by simp)) hc
      · exact hwf x (by simp [hx2])
    · rw [if_neg hc] at hn
      rcases List.mem_cons.mp hn with rfl | hn2
      · exact hwf n (by simp)
      · apply ih b _ n hn2
        intro x hx
        apply hwf
        simp only [List.mem_cons] at hx ⊢
        tauto

theorem siblingPassAux_chain : ∀ (l : List Net) (a : Net), (∀ n ∈ a :: l, wfNet n) →
    List.Chain' disjR (a :: l) → List.Chain' disjR (siblingPassAux a l) := by
  intro l
  induction l with
  | nil => intro a _ _; simp [siblingPassAux]
  | cons b rest ih =>
    intro a hwf hch
    rw [List.chain'_cons] at hch
    obtain ⟨hab, hch2⟩ := hch
    unfold siblingPassAux
    by_cases hc : canMerge a b
    · rw [if_pos hc]
      have hpe := parentN_endA (hwf a (by simp)) hc
      apply ih (parentN a)
      · intro x hx
        rcases List.mem_cons.mp hx with rfl | hx2
        · exact parentN_wf (hwf a (by simp)) hc
        · exact hwf x (by simp [hx2])
      · rw [List.chain'_cons']
        refine ⟨?_, hch2.tail⟩
        intro y hy
        have hby : disjR b y := by
          rcases rest with _ | ⟨c, rest2⟩
          · simp at hy
          · simp only [List.head?_cons, Option.mem_def, Option.some_inj] at hy
            subst hy
            exact (List.chain'_cons.mp hch2).1
        unfold disjR at hby ⊢
        rw [hpe.2.1, hpe.1]
        exact hby
    · rw [if_neg hc]
      rw [List.chain'_cons']
      constructor
      · intro y hy
        obtain ⟨p, r2, he, hw, haddr⟩ := siblingPassAux_head rest b
        rw [he] at hy
        simp only [List.head?_cons, Option.mem_def, Option.some_inj] at hy
        subst hy
        unfold disjR at hab ⊢
        rw [hw, haddr]
        exact hab
      · apply ih b _ hch2
        intro x hx
        apply hwf
        simp only [List.mem_cons] at hx ⊢
        tauto

theorem siblingPassAux_len : ∀ (l : List Net) (a : Net),
    (siblingPassAux a l).length ≤ l.length + 1 := by
  intro l
  induction l with
  | nil => intro a; simp [siblingPassAux]
  | cons b rest ih =>
    intro a
    unfold siblingPassAux
    by_cases hc : canMerge a b
    · rw [if_pos hc]
      have := ih (parentN a)
      simp only [List.length_cons]
      omega
    · rw [if_neg hc]
      have := ih b
      simp only [List.length_cons]
      omega

theorem siblingPassAux_ne_lt : ∀ (l : List Net) (a : Net),
    siblingPassAux a l ≠ a :: l → (siblingPassAux a l).length < l.length + 1 := by
  intro l
  induction l with
  | nil => intro a h; exact absurd rfl h
  | cons b rest ih =>
    intro a h
    unfold siblingPassAux at h ⊢
    by_cases hc : canMerge a b
    · rw [if_pos hc]
      have := siblingPassAux_len rest (parentN a)
      simp only [List.length_cons]
      omega
    · rw [if_neg hc] at h ⊢
      have hne : siblingPassAux b rest ≠ b :: rest := by
        intro he
        exact h (by rw [he])
      have := ih b hne
      simp only [List.length_cons] at this ⊢
      omega

theorem siblingPassAux_fix : ∀ (l : List Net) (a : Net), siblingPassAux a l = a :: l →
    List.Chain' (fun x y => ¬ canMerge x y) (a :: l) := by
  intro l
  induction l with
  | nil => intro a _; simp
  | cons b rest ih =>
    intro a h
    by_cases hc : canMerge a b
    · exfalso
      have hlt : (siblingPassAux a (b :: rest)).length < (b :: rest).length + 1 := by
        unfold siblingPassAux
        rw [if_pos hc]
        have := siblingPassAux_len rest (parentN a)
        simp only [List.length_cons]
        omega
      rw [h] at hlt
      simp at hlt
    · unfold siblingPassAux at h
      rw [if_neg hc] at h
      have h2 : siblingPassAux b rest = b :: rest := by
        injection h
      rw [List.chain'_cons]
      exact ⟨hc, ih b h2⟩

theorem siblingPass_wf (l : List Net) (hwf : ∀ n ∈ l, wfNet n) :
    ∀ n ∈ siblingPass l, wfNet n := by
  cases l with
  | nil => simp [siblingPass]
  | cons a rest => exact siblingPassAux_wf rest a hwf

theorem siblingPass_chain (l : List Net) (hwf : ∀ n ∈ l, wfNet n)
    (hch : List.Chain' disjR l) : List.Chain' disjR (siblingPass l) := by
  cases l with
  | nil => simp [siblingPass]
  | cons a rest => exact siblingPassAux_chain rest a hwf hch

theorem siblingPass_lt (l : List Net) (h : siblingPass l ≠ l) :
    (siblingPass l).length < l.length := by
  cases l with
  | nil => exact absurd rfl h
  | cons a rest =>
    have := siblingPassAux_ne_lt rest a (by intro he; exact h he)
    simpa using this

theorem siblingPass_fix_nomerge (l : List Net) (h : siblingPass l = l) :
    List.Chain' (fun x y => ¬ canMerge x y) l := by
  cases l with
  | nil => simp
  | cons a rest => exact siblingPassAux_fix rest a h

/-! ## The fixed-point loop -/

theorem mergeLoop_unfold (f : ℕ) (l : List Net) :
    mergeLoop (f + 1) l = if siblingPass l = l then l else mergeLoop f (siblingPass l) :=
  rfl

theorem mergeLoop_fix : ∀ (f : ℕ) (l : List Net), l.length ≤ f →
    siblingPass (mergeLoop f l) = mergeLoop f l := by
  intro f
  induction f with
  | zero =>
    intro l hl
    have : l = [] := List.length_eq_zero.mp (by omega)
    subst this
    rfl
  | succ f ih =>
    intro l hl
    rw [mergeLoop_unfold]
    by_cases h : siblingPass l = l
    · rw [if_pos h]
      exact h
    · rw [if_neg h]
      apply ih
      have := siblingPass_lt l h
      omega

theorem mergeLoop_inv (P : List Net → Prop) (hstep : ∀ l, P l → P (siblingPass l)) :
    ∀ (f : ℕ) (l : List Net), P l → P (mergeLoop f l) := by
  intro f
  induction f with
  | zero => intro l hp; exact hp
  | succ f ih =>
    intro l hp
    rw [mergeLoop_unfold]
    by_cases h : siblingPass l = l
    · rw [if_pos h]; exact hp
    · rw [if_neg h]; exact ih _ (hstep l hp)

theorem mergeLoop_of_fix (f : ℕ) (l : List Net) (h : siblingPass l = l) :
    mergeLoop f l = l := by
  cases f with
  | zero => rfl
  | succ f => rw [mergeLoop_unfold, if_pos h]

/-! ## The merged output: master invariants -/

theorem cidr_merge_invs (l : List Net) (hwf : ∀ n ∈ l, wfNet n) :
    (∀ n ∈ cidr_merge l, wfNet n) ∧ List.Chain' disjR (cidr_merge l) ∧
      siblingPass (cidr_merge l) = cidr_merge l := by
  have hperm : List.Perm (sortNets l) l := List.perm_insertionSort netLE l
  have hwfs : ∀ n ∈ sortNets l, wfNet n := fun n hn => hwf n (hperm.mem_iff.mp hn)
  have hsorted : List.Sorted netLE (sortNets l) := List.sorted_insertionSort netLE l
  have hsub : (subsume (sortNets l)).Sublist (sortNets l) := subsume_sublist _
  have hwfsub : ∀ n ∈ subsume (sortNets l), wfNet n := fun n hn => hwfs n (hsub.subset hn)
  have hchain : List.Chain' disjR (subsume (sortNets l)) := subsume_chain _ hwfs hsorted
  have hlen : (subsume (sortNets l)).length ≤ l.length := by
    have h1 := hsub.length_le
    have h2 := hperm.length_eq
    omega
  have hinv := mergeLoop_inv (fun l' => (∀ n ∈ l', wfNet n) ∧ List.Chain' disjR l')
    (fun l' hp => ⟨siblingPass_wf l' hp.1, siblingPass_chain l' hp.1 hp.2⟩)
    l.length _ ⟨hwfsub, hchain⟩
  exact ⟨hinv.1, hinv.2, mergeLoop_fix l.length _ hlen⟩

theorem siblingsP_symm {a b : Net} (h : SiblingsP a b) : SiblingsP b a := by
  obtain ⟨hw, hp, h1, hq, hne⟩ := h
  refine ⟨hw.symm, hp.symm, by omega, ?_, by omega⟩
  rw [← hw, ← hp]
  exact hq.symm

/-- In a pairwise-disjoint list with no adjacent mergeable pair, no pair at
    all is a sibling pair: siblings are interval-adjacent, so anything
    between them would be an empty block. -/
theorem pairwise_no_sib : ∀ (out : List Net), (∀ n ∈ out, wfNet n) →
    List.Pairwise disjR out → List.Chain' (fun x y => ¬ canMerge x y) out →
    List.Pairwise (fun a b => ¬ SiblingsP a b) out := by
  intro out
  induction out with
  | nil => simp
  | cons a rest ih =>
    intro hwf hpw hch
    rw [List.pairwise_cons] at hpw
    obtain ⟨hrel, hpw2⟩ := hpw
    rw [List.pairwise_cons]
    refine ⟨?_, ih (fun n hn => hwf n (by simp [hn])) hpw2 hch.tail⟩
    intro b hb hsib
    have hwa : wfNet a := hwf a (by simp)
    have hwb : wfNet b := hwf b (by simp [hb])
    have hdab : disjR a b := hrel b hb
    have hlt : a.addr < b.addr := by
      have hpos := wSize_pos a
      have hww := hsib.1
      unfold disjR endA at hdab
      omega
    obtain ⟨hba, hcm⟩ := siblings_structure hwa hwb hsib hlt
    cases rest with
    | nil => simp at hb
    | cons c rest2 =>
      rcases List.mem_cons.mp hb with rfl | hb2
      · exact (List.chain'_cons.mp hch).1 hcm
      · have hdac : disjR a c := hrel c (by simp)
        have hdcb : disjR c b := (List.pairwise_cons.mp hpw2).1 b hb2
        have hcw : c.w = a.w := by
          have h1 := disjR_w_le hdac
          have h2 := disjR_w_le hdcb
          have hww := hsib.1
          omega
        have hposc := wSize_pos c
        have hww := hsib.1
        unfold disjR endA at hdac hdcb
        unfold endA at hba
        omega

/-! ## Idempotence and permutation invariance of the merge -/

theorem cidr_merge_sorted (l : List Net) (hwf : ∀ n ∈ l, wfNet n) :
    List.Sorted netLE (cidr_merge l) := by
  have h := (cidr_merge_invs l hwf).2.1
  have hpw : List.Pairwise disjR (cidr_merge l) := List.chain'_iff_pairwise.mp h
  exact hpw.imp disjR_netLE

theorem cidr_merge_idem (l : List Net) (hwf : ∀ n ∈ l, wfNet n) :
    cidr_merge (cidr_merge l) = cidr_merge l := by
  obtain ⟨hwf2, hch, hfix⟩ := cidr_merge_invs l hwf
  have hsorted : List.Sorted netLE (cidr_merge l) := cidr_merge_sorted l hwf
  show mergeLoop (cidr_merge l).length (subsume (sortNets (cidr_merge l))) = cidr_merge l
  rw [show sortNets (cidr_merge l) = cidr_merge l from hsorted.insertionSort_eq]
  rw [subsume_of_chain _ hch]
  exact mergeLoop_of_fix _ _ hfix

theorem cidr_merge_perm (l l' : List Net) (h : List.Perm l l') :
    cidr_merge l = cidr_merge l' := by
  unfold cidr_merge
  have hs : sortNets l = sortNets l' :=
    List.eq_of_perm_of_sorted
      ((List.perm_insertionSort netLE l).trans (h.trans (List.perm_insertionSort netLE l').symm))
      (List.sorted_insertionSort netLE l) (List.sorted_insertionSort netLE l')
  rw [hs, h.length_eq]

/-! ## Parsing-loop lemmas -/

/-- The networks one line contributes when it does not abort the run. -/
def lineNets (l : List Char) : List Net :=
  match parseLineL l with
  | Except.ok ns => ns
  | Except.error _ => []

theorem parseLines_cons (l : List Char) (rest : List (List Char)) :
    parseLines (l :: rest) =
      match parseLineL l, parseLines rest with
      | Except.ok ns, Except.ok ms => Except.ok (ns ++ ms)
      | Except.error e, _ => Except.error e
      | Except.ok _, Except.error e => Except.error e := rfl

theorem parseLines_ok : ∀ (ls : List (List Char)) (ns : List Net),
    parseLines ls = Except.ok ns →
    ns = ls.flatMap lineNets ∧ ∀ l ∈ ls, parseLineL l ≠ Except.error () := by
  intro ls
  induction ls with
  | nil =>
    intro ns h
    simp only [parseLines] at h
    cases h
    simp
  | cons l rest ih =>
    intro ns h
    rw [parseLines_cons] at h
    cases h1 : parseLineL l with
    | error e => rw [h1] at h; simp at h
    | ok ns1 =>
      rw [h1] at h
      cases h2 : parseLines rest with
      | error e => rw [h2] at h; simp at h
      | ok ns2 =>
        rw [h2] at h
        simp only [Except.ok.injEq] at h
        obtain ⟨ha, hb⟩ := ih ns2 h2
        constructor
        · rw [← h, List.flatMap_cons, ← ha]
          congr 1
          simp [lineNets, h1]
        · intro x hx
          rcases List.mem_cons.mp hx with rfl | hx2
          · rw [h1]; simp
          · exact hb x hx2

theorem parseLines_err : ∀ (ls : List (List Char)),
    parseLines ls = Except.error () → ∃ l ∈ ls, parseLineL l = Except.error () := by
  intro ls
  induction ls with
  | nil => intro h; simp [parseLines] at h
  | cons l rest ih =>
    intro h
    rw [parseLines_cons] at h
    cases h1 : parseLineL l with
    | error e =>
      cases e
      exact ⟨l, by simp, h1⟩
    | ok ns1 =>
      rw [h1] at h
      cases h2 : parseLines rest with
      | error e =>
        cases e
        obtain ⟨x, hx, hxe⟩ := ih h2
        exact ⟨x, by simp [hx], hxe⟩
      | ok ns2 => rw [h2] at h; simp at h

/-- A line whose parse yields no networks and no exception is invisible to
    the run: the loop just continues. -/
theorem parseLines_skip (l : List Char) (h : parseLineL l = Except.ok []) :
    ∀ pre post, parseLines (pre ++ l :: post) = parseLines (pre ++ post) := by
  intro pre
  induction pre with
  | nil =>
    intro post
    simp only [List.nil_append]
    rw [parseLines_cons, h]
    cases h2 : parseLines post with
    | ok ms => simp
    | error e => simp
  | cons p pre' ih =>
    intro post
    simp only [List.cons_append]
    rw [parseLines_cons, parseLines_cons, ih post]

theorem parse_merge_perm (ls ls' : List (List Char)) (hp : List.Perm ls ls') :
    Except.map cidr_merge (parseLines ls) = Except.map cidr_merge (parseLines ls') := by
  cases h1 : parseLines ls with
  | error e =>
    cases e
    obtain ⟨l, hl, herr⟩ := parseLines_err ls h1
    cases h2 : parseLines ls' with
    | error e2 => cases e2; rfl
    | ok ns2 =>
      exact absurd herr ((parseLines_ok ls' ns2 h2).2 l (hp.mem_iff.mp hl))
  | ok ns =>
    cases h2 : parseLines ls' with
    | error e2 =>
      cases e2
      obtain ⟨l, hl, herr⟩ := parseLines_err ls' h2
      exact absurd herr ((parseLines_ok ls ns h1).2 l (hp.mem_iff.mpr hl))
    | ok ns2 =>
      obtain ⟨ha1, _⟩ := parseLines_ok ls ns h1
      obtain ⟨ha2, _⟩ := parseLines_ok ls' ns2 h2
      simp only [Except.map]
      rw [ha1, ha2]
      rw [cidr_merge_perm _ _ (hp.flatMap_right lineNets)]

/-! ## Domain-extraction lemmas -/

theorem startsWith_mem : ∀ (pat s : List Char), startsWith pat s = true → ∀ c ∈ pat, c ∈ s := by
  intro pat
  induction pat with
  | nil => intro s _ c hc; simp at hc
  | cons p ps ih =>
    intro s h c hc
    cases s with
    | nil => simp [startsWith] at h
    | cons x xs =>
      simp only [startsWith, Bool.and_eq_true, beq_iff_eq] at h
      obtain ⟨hpx, hrest⟩ := h
      rcases List.mem_cons.mp hc with rfl | hc2
      · simp [hpx]
      · exact List.mem_cons_of_mem x (ih xs hrest c hc2)

theorem hasSub_mem (pat : List Char) : ∀ (s : List Char), hasSub pat s = true →
    ∀ c ∈ pat, c ∈ s := by
  intro s
  induction s with
  | nil =>
    intro h c hc
    exact startsWith_mem pat [] h c hc
  | cons x xs ih =>
    intro h c hc
    unfold hasSub at h
    rcases Bool.or_eq_true_iff.mp h with h1 | h2
    · exact startsWith_mem pat (x :: xs) h1 c hc
    · exact List.mem_cons_of_mem x (ih h2 c hc)

theorem pySplitChar_ne_nil (sep : Char) (s : List Char) : pySplitChar sep s ≠ [] := by
  cases s with
  | nil => simp [pySplitChar]
  | cons c t =>
    unfold pySplitChar
    by_cases h : c = sep
    · rw [if_pos h]; simp
    · rw [if_neg h]
      cases pySplitChar sep t with
      | nil => simp
      | cons hh r => simp

theorem mem_pySplitChar_two (sep : Char) : ∀ (s : List Char), sep ∈ s →
    2 ≤ (pySplitChar sep s).length := by
  intro s
  induction s with
  | nil => intro h; simp at h
  | cons c t ih =>
    intro h
    unfold pySplitChar
    by_cases hc : c = sep
    · rw [if_pos hc]
      have h1 : 1 ≤ (pySplitChar sep t).length :=
        List.length_pos.mpr (pySplitChar_ne_nil sep t)
      simp only [List.length_cons]
      omega
    · rw [if_neg hc]
      have hmem : sep ∈ t := by
        rcases List.mem_cons.mp h with rfl | h2
        · exact absurd rfl hc
        · exact h2
      have h2 := ih hmem
      cases he : pySplitChar sep t with
      | nil => exact absurd he (pySplitChar_ne_nil sep t)
      | cons hh r =>
        rw [he] at h2
        simp only [List.length_cons] at h2 ⊢
        omega

/-- On a line containing the marker, the `IndexError` branch is dead:
    the split has a second element and exactly it is extracted. -/
theorem domains_line_marker (line : List Char) (h : hasSub srvMarker line = true) :
    2 ≤ (pySplitChar '/' line).length ∧
      domainsFromLine line = [(pySplitChar '/' line).getD 1 []] := by
  have hs : '/' ∈ line := hasSub_mem srvMarker line h '/' (by decide)
  have h2 := mem_pySplitChar_two '/' line hs
  refine ⟨h2, ?_⟩
  unfold domainsFromLine
  rw [if_pos h]
  cases he : pySplitChar '/' line with
  | nil => exact absurd he (pySplitChar_ne_nil _ _)
  | cons a rest =>
    cases rest with
    | nil => rw [he] at h2; simp at h2
    | cons b rest2 => simp

theorem flatMap_domains (ls : List (List Char)) :
    ls.flatMap domainsFromLine =
      (ls.filter (fun l => hasSub srvMarker l)).map
        (fun l => (pySplitChar '/' l).getD 1 []) := by
  induction ls with
  | nil => simp
  | cons l rest ih =>
    rw [List.flatMap_cons, ih]
    by_cases h : hasSub srvMarker l = true
    · rw [List.filter_cons_of_pos h, List.map_cons, (domains_line_marker l h).2]
      simp
    · have hb : domainsFromLine l = [] := by
        unfold domainsFromLine
        rw [if_neg h]
      rw [List.filter_cons_of_neg (by simpa using h), hb]
      simp

/-! ## Concrete inputs used by scenarios and witnesses -/

def bodyC1 : String := "apnic|CN|ipv4|1.0.0.0|192|20110414|allocated"
def lineC1out : String := "1.0.0.0/24"
def lineA : String := "apnic|CN|ipv4|1.0.0.0|256|20110414|allocated"
def lineB : String := "apnic|CN|ipv4|1.0.1.0|256|20110414|allocated"
def bodyC6 : String :=
  "apnic|CN|ipv4|1.0.0.0|256|20110414|allocated\napnic|CN|ipv4|1.0.1.0|256|20110414|allocated"
def outC6 : String := "1.0.0.0/23"
def badCountLine : String := "apnic|CN|ipv4|1.0.0.0|notanumber|20110414|allocated"
def shortLine : String := "x|CN|ipv4|"
def ipStrW : String := "1.0.0.0"
def countStrW : String := "192"
def srvLineW : String := "server=/example.com/114.114.114.114"
def mergeWitnessInput : List Net := [⟨32, 16777216, 24⟩, ⟨32, 16777472, 24⟩]

theorem okPair_of {a b : Net} (hd : disjR a b) (hns : ¬ SiblingsP a b) : okPair a b := by
  have hpos := wSize_pos a
  refine ⟨?_, (disjR_not_contains hd).1, (disjR_not_contains hd).2, hns, ?_⟩
  · intro hww
    unfold disjR endA at hd
    omega
  · intro hsba
    exact hns (siblingsP_symm hsba)

/-! ## The claims -/

/-- Claim C1, counterexample: for the feed consisting of the single relevant
    IPv4 record with count 192 (not a power of two), the run does not abort —
    it succeeds and writes the one line `1.0.0.0/24`, refuting "aborts with a
    FractionalPrefixError and zero lines written". -/
theorem c1_counterexample : update_ip_list 200 bodyC1 = Except.ok [lineC1out] := by rfl

/-- Claim C1, amended: a relevant IPv4 record whose positive in-range count
    is not a power of two is not rejected; the fractional prefix length
    `32 - log2 count` is truncated toward zero to `32 - ⌈log2 count⌉`, the
    record yields the enclosing block of `2 ^ ⌈log2 count⌉ > count`
    addresses, and the run continues (the bracketing conjuncts witness that
    the exact logarithm is strictly fractional). -/
theorem c1_truncation (ipStr countStr : List Char) (c : ℤ) (a : ℕ)
    (h1 : pyInt countStr = some c) (h2 : 0 < c) (h3 : c ≤ 2 ^ 32)
    (h4 : isPow2 c.toNat = false) (h5 : parseIPv4 ipStr = some a) :
    parseV4 ipStr countStr = Except.ok (mkNet 32 a (32 - ceilLog2 c.toNat)) ∧
      2 ^ (ceilLog2 c.toNat - 1) < c.toNat ∧ c.toNat < 2 ^ ceilLog2 c.toNat := by
  have hct : 1 ≤ c.toNat := by omega
  have hle : c.toNat ≤ 2 ^ 32 := by omega
  have hbr := not_pow2_bracket c.toNat hct h4
  refine ⟨?_, hbr.1, hbr.2⟩
  have hcl : ceilLog2 c.toNat ≤ 32 := ceilLog2_le _ _ hle
  have hpl : plenOfCount c.toNat = (32 : ℤ) - ceilLog2 c.toNat := by
    unfold plenOfCount
    rw [if_pos hle]
  have hc0 : ¬ c ≤ 0 := by omega
  simp only [parseV4, h1, if_neg hc0, hpl, h5]
  rw [if_neg (by omega : ¬ ((32 : ℤ) - ceilLog2 c.toNat < 0))]
  have htn : ((32 : ℤ) - ceilLog2 c.toNat).toNat = 32 - ceilLog2 c.toNat := by omega
  rw [htn]

theorem c1_truncation_witness :
    pyInt countStrW.toList = some 192 ∧ isPow2 (Int.toNat 192) = false ∧
      parseIPv4 ipStrW.toList = some 16777216 ∧
      parseV4 ipStrW.toList countStrW.toList =
        Except.ok (mkNet 32 16777216 (32 - ceilLog2 (Int.toNat 192))) :=
  ⟨by decide, by decide, by decide,
    (c1_truncation ipStrW.toList countStrW.toList 192 16777216
      (by decide) (by decide) (by decide) (by decide) (by decide)).1⟩

/-- Claim C2 (exact-real reading): under exact logarithm semantics the
    conversion is exact — for every power of two `2 ^ k` in the 32-bit range
    the computed prefix length equals the integer `32 - k`, no remainder.
    (The code's floating-point evaluation `int(32 - math.log(count, 2))`
    violates this at `count = 2 ^ 29` and `count = 2 ^ 31`, where IEEE-754
    `log(count)/log(2)` lands just above the integer and the truncation
    produces 2 resp. 0 instead of 3 resp. 1 — the reported code bug.) -/
theorem c2_exact_conversion (k : Fin 33) :
    plenOfCount (2 ^ (k : ℕ)) = 32 - ((k : ℕ) : ℤ) := by
  have hk : (k : ℕ) ≤ 32 := by omega
  unfold plenOfCount
  rw [if_pos (Nat.pow_le_pow_right (by omega) hk), ceilLog2_pow]

/-- Claim C3: for every list of well-formed networks, the merged output is
    sorted (ascending addresses within a family, IPv4 before IPv6) and
    pairwise clean: strictly increasing addresses in a family, no network
    contained in another in either direction, and no sibling pair that a
    common parent could replace. -/
theorem c3_merge_output_contract (l : List Net) (hwf : ∀ n ∈ l, wfNet n) :
    List.Sorted netLE (cidr_merge l) ∧ List.Pairwise okPair (cidr_merge l) := by
  obtain ⟨hwfo, hch, hfix⟩ := cidr_merge_invs l hwf
  have hpw : List.Pairwise disjR (cidr_merge l) := List.chain'_iff_pairwise.mp hch
  have hnosib := pairwise_no_sib _ hwfo hpw (siblingPass_fix_nomerge _ hfix)
  refine ⟨hpw.imp disjR_netLE, ?_⟩
  exact (hpw.and hnosib).imp (fun hab => okPair_of hab.1 hab.2)

theorem c3_merge_output_contract_witness :
    (∀ n ∈ mergeWitnessInput, wfNet n) ∧
      (List.Sorted netLE (cidr_merge mergeWitnessInput) ∧
        List.Pairwise okPair (cidr_merge mergeWitnessInput)) :=
  ⟨by decide, c3_merge_output_contract mergeWitnessInput (by decide)⟩

/-- Claim C4: the merge is idempotent — applying it to its own output
    returns that output unchanged. -/
theorem c4_merge_idempotent (l : List Net) (hwf : ∀ n ∈ l, wfNet n) :
    cidr_merge (cidr_merge l) = cidr_merge l :=
  cidr_merge_idem l hwf

theorem c4_merge_idempotent_witness :
    (∀ n ∈ mergeWitnessInput, wfNet n) ∧
      cidr_merge (cidr_merge mergeWitnessInput) = cidr_merge mergeWitnessInput :=
  ⟨by decide, c4_merge_idempotent mergeWitnessInput (by decide)⟩

/-- Claim C5: the final output is order-independent — parsing and merging
    any permutation of the input lines gives the same result (the same
    serialized network list on success, and an abort exactly when the
    original aborts). -/
theorem c5_order_independence (ls ls' : List (List Char)) (hp : List.Perm ls ls') :
    Except.map (fun ns => (cidr_merge ns).map netToString) (parseLines ls) =
      Except.map (fun ns => (cidr_merge ns).map netToString) (parseLines ls') := by
  have h := parse_merge_perm ls ls' hp
  cases h1 : parseLines ls with
  | error e =>
    cases h2 : parseLines ls' with
    | error e2 => cases e; cases e2; rfl
    | ok ns2 => rw [h1, h2] at h; simp [Except.map] at h
  | ok ns =>
    cases h2 : parseLines ls' with
    | error e2 => rw [h1, h2] at h; simp [Except.map] at h
    | ok ns2 =>
      rw [h1, h2] at h
      simp only [Except.map, Except.ok.injEq] at h ⊢
      rw [h]

theorem c5_order_independence_witness :
    Except.map (fun ns => (cidr_merge ns).map netToString)
        (parseLines [lineA.toList, lineB.toList]) =
      Except.map (fun ns => (cidr_merge ns).map netToString)
        (parseLines [lineB.toList, lineA.toList]) :=
  c5_order_independence _ _ (List.Perm.swap lineB.toList lineA.toList [])

/-- Claim C6: the feed holding exactly the two relevant IPv4 records
    1.0.0.0 count 256 and 1.0.1.0 count 256 (two adjacent /24s) parses and
    merges to the single output line `1.0.0.0/23`. -/
theorem c6_adjacent_merge_scenario : update_ip_list 200 bodyC6 = Except.ok [outC6] := by rfl

/-- Claim C7: a non-success HTTP status aborts the IP-list run before any
    parsing, whatever the body holds; and any successful run's output is the
    complete serialization of the merge of the fully parsed feed — the
    in-memory accumulation admits no partial result. -/
theorem c7_fetch_failure_contract (status : ℕ) (body : String) :
    (status ≠ 200 → update_ip_list status body = Except.error ()) ∧
    (∀ out, update_ip_list status body = Except.ok out →
      ∃ ns, parseLines (pySplitlines body.toList) = Except.ok ns ∧
        out = (cidr_merge ns).map netToString) := by
  constructor
  · intro h
    unfold update_ip_list
    rw [if_pos h]
  · intro out h
    unfold update_ip_list at h
    by_cases hs : status ≠ 200
    · rw [if_pos hs] at h
      simp at h
    · rw [if_neg hs] at h
      cases h2 : parseLines (pySplitlines body.toList) with
      | error e => rw [h2] at h; simp [Except.map] at h
      | ok ns =>
        rw [h2] at h
        simp only [Except.map, Except.ok.injEq] at h
        exact ⟨ns, rfl, h.symm⟩

theorem c7_fetch_failure_contract_witness : update_ip_list 404 bodyC6 = Except.error () :=
  (c7_fetch_failure_contract 404 bodyC6).1 (by decide)

/-- Claim C8, counterexample: a relevant line whose count field fails the
    numeric conversion aborts the whole run (the `except IndexError` arm
    does not catch the `ValueError`), refuting "such a line never aborts". -/
theorem c8_counterexample : update_ip_list 200 badCountLine = Except.error () := by rfl

/-- Claim C8, amended: only the too-few-fields failure is recovered
    per line — such a line parses to no networks and the run continues
    around it unchanged; a relevant line with enough fields whose count
    field fails the numeric conversion aborts the run. -/
theorem c8_format_error_scope (line : List Char) :
    (hasSub v4Marker line = true → (pySplitChar '|' line).length < 5 →
      parseLineL line = Except.ok [] ∧
      ∀ pre post, parseLines (pre ++ line :: post) = parseLines (pre ++ post)) ∧
    (hasSub v4Marker line = true → 5 ≤ (pySplitChar '|' line).length →
      pyInt ((pySplitChar '|' line).getD 4 []) = none →
      parseLineL line = Except.error ()) := by
  constructor
  · intro _ hlen
    have hok : parseLineL line = Except.ok [] := by
      unfold parseLineL
      rw [if_pos hlen]
    exact ⟨hok, parseLines_skip line hok⟩
  · intro hm hlen hint
    simp only [parseLineL]
    rw [if_neg (by omega : ¬ (pySplitChar '|' line).length < 5)]
    simp only [hm, if_true, parseV4, hint]
    rfl

theorem c8_format_error_scope_witness :
    parseLineL shortLine.toList = Except.ok [] ∧
      parseLineL badCountLine.toList = Except.error () :=
  ⟨((c8_format_error_scope shortLine.toList).1 (by decide) (by decide)).1,
    (c8_format_error_scope badCountLine.toList).2 (by decide) (by decide) (by decide)⟩

/-- Claim C9: for every trio of fetched feed texts the collector emits,
    in fixed feed order with per-feed line order preserved and without
    deduplication, the token between the first and second `/` of exactly
    those lines containing the marker `server=/` — the domain token for
    lines of the `server=/<domain>/...` shape. -/
theorem c9_domain_collector (t1 t2 t3 : String) :
    update_chn_domain_list t1 t2 t3 =
      ((pySplitlines t1.toList ++ pySplitlines t2.toList ++ pySplitlines t3.toList).filter
        (fun l => hasSub srvMarker l)).map
        (fun l => String.mk ((pySplitChar '/' l).getD 1 [])) := by
  unfold update_chn_domain_list get_domains_from
  rw [List.filter_append, List.filter_append, List.map_append, List.map_append]
  rw [flatMap_domains, flatMap_domains, flatMap_domains]
  simp only [List.map_map]
  rfl

/-- Claim C10: the `IndexError` handler in the domain loop is unreachable —
    any line containing `server=/` contains a `/`, so splitting on `/`
    yields at least two pieces and element 1 exists and is extracted. -/
theorem c10_indexerror_unreachable (line : List Char) (h : hasSub srvMarker line = true) :
    2 ≤ (pySplitChar '/' line).length ∧
      domainsFromLine line = [(pySplitChar '/' line).getD 1 []] :=
  domains_line_marker line h

theorem c10_indexerror_unreachable_witness :
    2 ≤ (pySplitChar '/' srvLineW.toList).length ∧
      domainsFromLine srvLineW.toList = [(pySplitChar '/' srvLineW.toList).getD 1 []] :=
  c10_indexerror_unreachable srvLineW.toList (by decide)

end ChnIp
